import Mathlib

/-!
consul-kv-diff: comparison of a local key/value set with a Consul KV store

A shallow embedding of `diff.go`, `loader.go` and the pure parts of `main.go`,
followed by theorems about `Compare`, `HasDifferences`, `filterByPrefix`,
`printResult` and the map-building loop of `LoadLocalKV`.

Modelling conventions

* A Go `string` is an immutable sequence of bytes: `GoString` is a list of
  bytes (as naturals; the theorems hold for every list, in particular for
  those whose elements are all below 256). `len` is `List.length`, `s[:n]` is
  `List.take n`, `==` is equality and `<` is the lexicographic order on the
  byte lists.
* A Go `map[string]string` is a finite set of entries with pairwise distinct
  keys: `GoMap` is an association list with distinct keys. The order of the
  entries is the order in which `range` visits them in the run at hand; Go
  leaves that order unspecified, and every theorem below holds for every
  `GoMap`, hence for every iteration order. `m[k] = v` is `AList.insert`,
  `v, ok := m[k]` is `AList.lookup`.
* A Go slice is a list; `append(s, x)` is `s ++ [x]`. A nil slice and an
  empty slice both have length 0 and are both the empty list.
* Standard output is the list of the texts written by the successive
  `fmt.Println` and `fmt.Printf` calls, in order, each without its terminating
  newline.
-/

namespace ConsulKVDiff

/-- A Go string: a finite sequence of bytes. -/
abbrev GoString := List Nat

/-- The bytes of an ASCII string literal of the source. -/
def lit (s : String) : GoString := s.toList.map Char.toNat

/-- Go: `a < b` on strings, the lexicographic order of the byte sequences. -/
def strLess (a b : GoString) : Prop := List.Lex (· < ·) a b

instance : DecidableRel strLess := fun a b => inferInstanceAs (Decidable (List.Lex (· < ·) a b))

/-- A Go `map[string]string`. -/
abbrev GoMap := AList (fun _ : GoString => GoString)

/-! ## diff.go -/

/-- ModifiedKey represents information about a modified key. -/
structure ModifiedKey where
  Key : GoString
  OldValue : GoString
  NewValue : GoString
  deriving DecidableEq, Repr

/-- DiffResult represents the result of difference detection. -/
structure DiffResult where
  Modified : List ModifiedKey
  OnlyInConsul : List GoString
  deriving DecidableEq, Repr

/-- Body of the first loop of `Compare`, for one entry `key, localValue` of the
local map. -/
def compareLocalStep (consulKV : GoMap) (result : DiffResult)
    (e : Sigma (fun _ : GoString => GoString)) : DiffResult :=
  match consulKV.lookup e.1 with
  | some consulValue =>
    if e.2 ≠ consulValue then
      { result with Modified := result.Modified ++ [⟨e.1, e.2, consulValue⟩] }
    else result
  | none => result

/-- Body of the second loop of `Compare`, for one key of the Consul map. -/
def compareConsulStep (localKV : GoMap) (result : DiffResult)
    (e : Sigma (fun _ : GoString => GoString)) : DiffResult :=
  match localKV.lookup e.1 with
  | none => { result with OnlyInConsul := result.OnlyInConsul ++ [e.1] }
  | some _ => result

/-- Compare detects differences between two KV maps. -/
def Compare (localKV consulKV : GoMap) : DiffResult :=
  let result : DiffResult := { Modified := [], OnlyInConsul := [] }
  let result := localKV.entries.foldl (compareLocalStep consulKV) result
  let result := consulKV.entries.foldl (compareConsulStep localKV) result
  result

/-- HasDifferences returns whether differences exist. -/
def DiffResult.HasDifferences (d : DiffResult) : Bool :=
  decide (d.Modified.length > 0) || decide (d.OnlyInConsul.length > 0)

/-! ## main.go -/

/-- The test `len(key) >= len(prefix) && key[:len(prefix)] == prefix`. -/
def hasPrefix (key pfx : GoString) : Bool :=
  decide (key.length ≥ pfx.length) && decide (key.take pfx.length = pfx)

/-- Go: `filterByPrefix(kv, prefix)`. -/
def filterByPrefix (kv : GoMap) (pfx : GoString) : GoMap :=
  kv.entries.foldl
    (fun filtered e => if hasPrefix e.1 pfx then filtered.insert e.1 e.2 else filtered)
    (∅ : GoMap)

/-- The comparison function handed to `sort.Slice` for `result.Modified`:
`Modified[i].Key < Modified[j].Key`. -/
def lessKey (a b : ModifiedKey) : Prop := strLess a.Key b.Key

instance : DecidableRel lessKey := fun a b => inferInstanceAs (Decidable (strLess a.Key b.Key))

/-- Go: `sort.Slice(result.Modified, less)` of the standard library, which
reorders the slice so that no element is `less` than an earlier one. Modelled
by insertion sort on "not less the other way round". -/
def sortSlice (l : List ModifiedKey) : List ModifiedKey :=
  l.insertionSort (fun a b => ¬ lessKey b a)

/-- Go: `sort.Strings(result.OnlyInConsul)` of the standard library: sorts in
increasing order. -/
def sortStrings (l : List GoString) : List GoString :=
  l.insertionSort (fun a b => ¬ strLess b a)

/-- The four lines printed for one modified key. -/
def modifiedLines (m : ModifiedKey) : List GoString :=
  [lit "Key: " ++ m.Key, lit "  Local:  " ++ m.OldValue, lit "  Consul: " ++ m.NewValue, []]

/-- Go: `printResult(result)`; the value is the list of lines written to
standard output. (The Go function also leaves the two slices of `result`
sorted; nothing reads them afterwards.) -/
def printResult (result : DiffResult) : List GoString :=
  if result.Modified.length = 0 ∧ result.OnlyInConsul.length = 0 then
    [lit "No differences found."]
  else
    (if result.Modified.length > 0 then
      lit "=== Modified Keys ===" :: (sortSlice result.Modified).flatMap modifiedLines
    else []) ++
    (if result.OnlyInConsul.length > 0 then
      lit "=== Keys Only in Consul ===" ::
        (sortStrings result.OnlyInConsul).map (fun key => lit "- " ++ key)
    else [])

/-! ## loader.go -/

/-- LocalKVPair represents the structure of local JSON. -/
structure LocalKVPair where
  Key : GoString
  Value : GoString
  deriving DecidableEq, Repr

/-- The two ways `LoadLocalKV` fails. -/
inductive LoadError where
  | openFailed
  | decodeFailed
  deriving DecidableEq, Repr

/-- What opening the file and decoding its JSON content gives: the file cannot
be opened, its content does not decode, or the decoded sequence of records. -/
inductive FileOutcome where
  | unreadable
  | malformed
  | decoded (pairs : List LocalKVPair)

/-- Go: `LoadLocalKV(filepath)`, as a function of what the file system and the
JSON decoder give for `filepath`. -/
def LoadLocalKV (file : FileOutcome) : Except LoadError GoMap :=
  match file with
  | .unreadable => .error .openFailed
  | .malformed => .error .decodeFailed
  | .decoded pairs =>
    .ok (pairs.foldl (fun kvMap pair => kvMap.insert pair.Key pair.Value) (∅ : GoMap))

/-! ## Auxiliary definitions for the proofs -/

/-- The entry the first loop of `Compare` appends for one entry of the local
map, if any. -/
def modifiedOf (consulKV : GoMap) (e : Sigma (fun _ : GoString => GoString)) :
    Option ModifiedKey :=
  match consulKV.lookup e.1 with
  | some consulValue => if e.2 ≠ consulValue then some ⟨e.1, e.2, consulValue⟩ else none
  | none => none

/-- The key the second loop of `Compare` appends for one entry of the Consul
map, if any. -/
def onlyOf (localKV : GoMap) (e : Sigma (fun _ : GoString => GoString)) : Option GoString :=
  match localKV.lookup e.1 with
  | none => some e.1
  | some _ => none

/-! ## Lemmas on the two loops of `Compare` -/

theorem foldl_compareLocalStep (consulKV : GoMap)
    (l : List (Sigma (fun _ : GoString => GoString))) (r : DiffResult) :
    l.foldl (compareLocalStep consulKV) r
      = ⟨r.Modified ++ l.filterMap (modifiedOf consulKV), r.OnlyInConsul⟩ := by
  induction l generalizing r with
  | nil => simp
  | cons e l ih =>
    rw [List.foldl_cons, ih]
    unfold compareLocalStep modifiedOf
    cases h : consulKV.lookup e.1 with
    | none => simp [List.filterMap_cons, modifiedOf, h]
    | some cv =>
      by_cases hne : e.2 = cv
      · simp [List.filterMap_cons, modifiedOf, h, hne]
      · simp [List.filterMap_cons, modifiedOf, h, hne]

theorem foldl_compareConsulStep (localKV : GoMap)
    (l : List (Sigma (fun _ : GoString => GoString))) (r : DiffResult) :
    l.foldl (compareConsulStep localKV) r
      = ⟨r.Modified, r.OnlyInConsul ++ l.filterMap (onlyOf localKV)⟩ := by
  induction l generalizing r with
  | nil => simp
  | cons e l ih =>
    rw [List.foldl_cons, ih]
    unfold compareConsulStep onlyOf
    cases h : localKV.lookup e.1 with
    | none => simp [List.filterMap_cons, onlyOf, h]
    | some lv => simp [List.filterMap_cons, onlyOf, h]

theorem Compare_Modified (localKV consulKV : GoMap) :
    (Compare localKV consulKV).Modified = localKV.entries.filterMap (modifiedOf consulKV) := by
  simp [Compare, foldl_compareLocalStep, foldl_compareConsulStep]

theorem Compare_OnlyInConsul (localKV consulKV : GoMap) :
    (Compare localKV consulKV).OnlyInConsul = consulKV.entries.filterMap (onlyOf localKV) := by
  simp [Compare, foldl_compareLocalStep, foldl_compareConsulStep]

theorem mem_Compare_Modified (localKV consulKV : GoMap) (m : ModifiedKey) :
    m ∈ (Compare localKV consulKV).Modified ↔
      localKV.lookup m.Key = some m.OldValue ∧ consulKV.lookup m.Key = some m.NewValue
        ∧ m.OldValue ≠ m.NewValue := by
  rw [Compare_Modified, List.mem_filterMap]
  constructor
  · rintro ⟨⟨k, v⟩, he, hm⟩
    have hl : localKV.lookup k = some v := AList.mem_lookup_iff.2 he
    unfold modifiedOf at hm
    cases hc : consulKV.lookup k with
    | none => simp [hc] at hm
    | some cv =>
      by_cases hne : v = cv
      · simp [hc, hne] at hm
      · simp [hc, hne] at hm
        subst hm
        exact ⟨hl, hc, hne⟩
  · rintro ⟨hl, hc, hne⟩
    refine ⟨⟨m.Key, m.OldValue⟩, AList.mem_lookup_iff.1 hl, ?_⟩
    unfold modifiedOf
    simp [hc, hne]

theorem mem_Compare_OnlyInConsul (localKV consulKV : GoMap) (k : GoString) :
    k ∈ (Compare localKV consulKV).OnlyInConsul ↔ k ∈ consulKV ∧ k ∉ localKV := by
  rw [Compare_OnlyInConsul, List.mem_filterMap]
  constructor
  · rintro ⟨⟨k', v⟩, he, hm⟩
    have hc : consulKV.lookup k' = some v := AList.mem_lookup_iff.2 he
    unfold onlyOf at hm
    cases hl : localKV.lookup k' with
    | none =>
      simp [hl] at hm
      subst hm
      exact ⟨AList.lookup_isSome.1 (by simp [hc]), AList.lookup_eq_none.1 hl⟩
    | some lv => simp [hl] at hm
  · rintro ⟨hc, hl⟩
    obtain ⟨v, hv⟩ := Option.isSome_iff_exists.1 (AList.lookup_isSome.2 hc)
    refine ⟨⟨k, v⟩, AList.mem_lookup_iff.1 hv, ?_⟩
    unfold onlyOf
    simp [AList.lookup_eq_none.2 hl]

theorem Compare_keys_sublist (localKV consulKV : GoMap) :
    ((Compare localKV consulKV).Modified.map ModifiedKey.Key).Sublist localKV.keys := by
  rw [Compare_Modified]
  unfold AList.keys List.keys
  generalize localKV.entries = l
  induction l with
  | nil => simp
  | cons e l ih =>
    rw [List.filterMap_cons]
    cases h : modifiedOf consulKV e with
    | none => simpa using ih.cons e.1
    | some m =>
      have hk : m.Key = e.1 := by
        unfold modifiedOf at h
        cases hc : consulKV.lookup e.1 with
        | none => simp [hc] at h
        | some cv =>
          by_cases hne : e.2 = cv
          · simp [hc, hne] at h
          · simp [hc, hne] at h
            rw [← h]
      simpa [hk] using ih.cons₂ e.1

theorem Compare_only_sublist (localKV consulKV : GoMap) :
    (Compare localKV consulKV).OnlyInConsul.Sublist consulKV.keys := by
  rw [Compare_OnlyInConsul]
  unfold AList.keys List.keys
  generalize consulKV.entries = l
  induction l with
  | nil => simp
  | cons e l ih =>
    rw [List.filterMap_cons]
    cases h : onlyOf localKV e with
    | none => simpa using ih.cons e.1
    | some k =>
      have hk : k = e.1 := by
        unfold onlyOf at h
        cases hl : localKV.lookup e.1 with
        | none =>
          simp [hl] at h
          exact h.symm
        | some lv => simp [hl] at h
      simpa [hk] using ih.cons₂ e.1

/-! ## Theorems on `Compare` and `HasDifferences` -/

/-- C1: `Compare(local, consul).Modified` has an entry with key `k` exactly
when `k` is a key of both maps and the two values differ, and every entry of
`Modified` carries the local value as `OldValue` and the Consul value as
`NewValue`. -/
theorem Compare_Modified_spec (localKV consulKV : GoMap) (k : GoString) :
    ((∃ m ∈ (Compare localKV consulKV).Modified, m.Key = k) ↔
        ∃ lv cv, localKV.lookup k = some lv ∧ consulKV.lookup k = some cv ∧ lv ≠ cv) ∧
    (∀ m ∈ (Compare localKV consulKV).Modified, m.Key = k →
        localKV.lookup k = some m.OldValue ∧ consulKV.lookup k = some m.NewValue) := by
  constructor
  · constructor
    · rintro ⟨m, hm, rfl⟩
      have h := (mem_Compare_Modified localKV consulKV m).1 hm
      exact ⟨m.OldValue, m.NewValue, h⟩
    · rintro ⟨lv, cv, hl, hc, hne⟩
      exact ⟨⟨k, lv, cv⟩, (mem_Compare_Modified localKV consulKV ⟨k, lv, cv⟩).2 ⟨hl, hc, hne⟩, rfl⟩
  · rintro m hm rfl
    have h := (mem_Compare_Modified localKV consulKV m).1 hm
    exact ⟨h.1, h.2.1⟩

/-- C2: `k` is in `Compare(local, consul).OnlyInConsul` exactly when `k` is a
key of `consul` and not a key of `local`, whatever the values are. -/
theorem Compare_OnlyInConsul_spec (localKV consulKV : GoMap) (k : GoString) :
    k ∈ (Compare localKV consulKV).OnlyInConsul ↔ k ∈ consulKV ∧ k ∉ localKV :=
  mem_Compare_OnlyInConsul localKV consulKV k

theorem hasDifferences_iff (d : DiffResult) :
    d.HasDifferences = true ↔ d.Modified ≠ [] ∨ d.OnlyInConsul ≠ [] := by
  simp [DiffResult.HasDifferences, List.length_pos]

/-- C3: `HasDifferences` is true exactly when `Modified` is non-empty or
`OnlyInConsul` is non-empty. -/
theorem HasDifferences_spec (d : DiffResult) :
    d.HasDifferences = true ↔ d.Modified ≠ [] ∨ d.OnlyInConsul ≠ [] := by
  simp [DiffResult.HasDifferences, List.length_pos]

/-- C4: a key of `local` that is not a key of `consul` is the key of no entry of
`Modified` and is not in `OnlyInConsul`; and comparing any `local` with the
empty map gives empty `Modified` and empty `OnlyInConsul`. -/
theorem Compare_local_only_ignored (localKV : GoMap) :
    (∀ (consulKV : GoMap) (k : GoString), k ∈ localKV → k ∉ consulKV →
        (∀ m ∈ (Compare localKV consulKV).Modified, m.Key ≠ k) ∧
        k ∉ (Compare localKV consulKV).OnlyInConsul) ∧
    (Compare localKV ∅).Modified = [] ∧ (Compare localKV ∅).OnlyInConsul = [] := by
  refine ⟨?_, ?_, ?_⟩
  · intro consulKV k _ hc
    constructor
    · rintro m hm rfl
      have h := (mem_Compare_Modified localKV consulKV m).1 hm
      exact hc (AList.lookup_isSome.1 (by simp [h.2.1]))
    · intro h
      exact hc ((mem_Compare_OnlyInConsul localKV consulKV k).1 h).1
  · apply List.eq_nil_iff_forall_not_mem.2
    intro m hm
    have h := (mem_Compare_Modified localKV ∅ m).1 hm
    simp [AList.lookup_empty] at h
  · apply List.eq_nil_iff_forall_not_mem.2
    intro k hk
    exact AList.not_mem_empty k ((mem_Compare_OnlyInConsul localKV ∅ k).1 hk).1

/-- C5: comparing a map with itself gives empty `Modified` and empty
`OnlyInConsul`, so `HasDifferences` is false on the result. -/
theorem Compare_self (m : GoMap) :
    (Compare m m).Modified = [] ∧ (Compare m m).OnlyInConsul = [] ∧
      (Compare m m).HasDifferences = false := by
  have h1 : (Compare m m).Modified = [] := by
    apply List.eq_nil_iff_forall_not_mem.2
    intro x hx
    have h := (mem_Compare_Modified m m x).1 hx
    rw [h.1] at h
    exact h.2.2 (Option.some.inj h.2.1)
  have h2 : (Compare m m).OnlyInConsul = [] := by
    apply List.eq_nil_iff_forall_not_mem.2
    intro k hk
    have h := (mem_Compare_OnlyInConsul m m k).1 hk
    exact h.2 h.1
  refine ⟨h1, h2, ?_⟩
  simp [DiffResult.HasDifferences, h1, h2]

/-- C10: `Compare` reports each key at most once: the keys of `Modified` are
pairwise distinct, `OnlyInConsul` has no duplicate, no key is in both, and the
two lengths together are at most the number of keys of `consul`. -/
theorem Compare_reports_once (localKV consulKV : GoMap) :
    ((Compare localKV consulKV).Modified.map ModifiedKey.Key).Nodup ∧
    (Compare localKV consulKV).OnlyInConsul.Nodup ∧
    (∀ m ∈ (Compare localKV consulKV).Modified,
        m.Key ∉ (Compare localKV consulKV).OnlyInConsul) ∧
    (Compare localKV consulKV).Modified.length + (Compare localKV consulKV).OnlyInConsul.length
      ≤ consulKV.keys.length := by
  have hM := (Compare_keys_sublist localKV consulKV).nodup localKV.keys_nodup
  have hO := (Compare_only_sublist localKV consulKV).nodup consulKV.keys_nodup
  have hD : ∀ m ∈ (Compare localKV consulKV).Modified,
      m.Key ∉ (Compare localKV consulKV).OnlyInConsul := by
    intro m hm hk
    have h := (mem_Compare_Modified localKV consulKV m).1 hm
    exact ((mem_Compare_OnlyInConsul localKV consulKV m.Key).1 hk).2
      (AList.lookup_isSome.1 (by simp [h.1]))
  refine ⟨hM, hO, hD, ?_⟩
  have hnd : ((Compare localKV consulKV).Modified.map ModifiedKey.Key ++
      (Compare localKV consulKV).OnlyInConsul).Nodup := by
    rw [List.nodup_append]
    refine ⟨hM, hO, ?_⟩
    intro k hk1 hk2
    obtain ⟨m, hm, rfl⟩ := List.mem_map.1 hk1
    exact hD m hm hk2
  have hsub : ((Compare localKV consulKV).Modified.map ModifiedKey.Key ++
      (Compare localKV consulKV).OnlyInConsul) ⊆ consulKV.keys := by
    intro k hk
    rcases List.mem_append.1 hk with h | h
    · obtain ⟨m, hm, rfl⟩ := List.mem_map.1 h
      have h' := (mem_Compare_Modified localKV consulKV m).1 hm
      exact AList.mem_keys.1 (AList.lookup_isSome.1 (by simp [h'.2.1]))
    · exact AList.mem_keys.1 ((mem_Compare_OnlyInConsul localKV consulKV k).1 h).1
  have hlen := (List.subperm_of_subset hnd hsub).length_le
  simpa using hlen

/-! ## Theorems on `filterByPrefix` -/

theorem hasPrefix_iff (key pfx : GoString) : hasPrefix key pfx = true ↔ pfx <+: key := by
  unfold hasPrefix
  rw [List.prefix_iff_eq_take]
  constructor
  · intro h
    simp only [Bool.and_eq_true, decide_eq_true_eq] at h
    exact h.2.symm
  · intro h
    simp only [Bool.and_eq_true, decide_eq_true_eq]
    refine ⟨?_, h.symm⟩
    have hl := congrArg List.length h
    rw [List.length_take] at hl
    omega

theorem lookup_foldl_filter (pfx : GoString) :
    ∀ (l : List (Sigma (fun _ : GoString => GoString))) (acc : GoMap), l.NodupKeys →
      ∀ k : GoString,
      (l.foldl (fun filtered e => if hasPrefix e.1 pfx then filtered.insert e.1 e.2 else filtered)
          acc).lookup k
        = if hasPrefix k pfx = true then (l.dlookup k).or (acc.lookup k) else acc.lookup k := by
  intro l
  induction l with
  | nil => intro acc _ k; simp
  | cons e l ih =>
    intro acc hnd k
    obtain ⟨hnot, hnd'⟩ := List.nodupKeys_cons.1 hnd
    rw [List.foldl_cons, ih _ hnd' k]
    by_cases hk : hasPrefix k pfx = true
    · simp only [hk, if_true]
      by_cases hke : k = e.1
      · subst hke
        have hl : List.dlookup e.1 l = none := List.dlookup_eq_none.2 hnot
        obtain ⟨a, b⟩ := e
        simp only [hk, if_true, hl, Option.or, List.dlookup_cons_eq, AList.lookup_insert]
      · rw [List.dlookup_cons_ne l e hke]
        by_cases he : hasPrefix e.1 pfx = true
        · simp only [he, if_true, AList.lookup_insert_ne hke]
        · simp only [he]
          rfl
    · simp only [hk]
      by_cases he : hasPrefix e.1 pfx = true
      · have hke : k ≠ e.1 := fun h => hk (h ▸ he)
        simp [he, AList.lookup_insert_ne hke]
      · simp [he]

theorem lookup_filterByPrefix (kv : GoMap) (pfx k : GoString) :
    (filterByPrefix kv pfx).lookup k = if hasPrefix k pfx = true then kv.lookup k else none := by
  unfold filterByPrefix
  rw [lookup_foldl_filter pfx kv.entries ∅ kv.nodupKeys k]
  simp [AList.lookup_empty, AList.lookup]

/-- C6, as the code has it: `filterByPrefix(kv, p)` retains exactly the
entries of `kv` whose KEY begins with `p` (byte-wise): `k` is mapped to `v` in
the result exactly when `kv[k] = v` and `k` starts with `p`. -/
theorem filterByPrefix_spec (kv : GoMap) (pfx k v : GoString) :
    (filterByPrefix kv pfx).lookup k = some v ↔ kv.lookup k = some v ∧ pfx <+: k := by
  rw [lookup_filterByPrefix, ← hasPrefix_iff]
  by_cases h : hasPrefix k pfx = true
  · simp [h]
  · simp [h]

/-- C6, as stated, fails: with `kv = {"app/port": "ODA4MA=="}` and prefix
`"app"`, the entry is retained although its value does not begin with
`"app"`. -/
theorem filterByPrefix_value_counterexample :
    ¬ ((filterByPrefix ((∅ : GoMap).insert (lit "app/port") (lit "ODA4MA==")) (lit "app")).lookup
          (lit "app/port") = some (lit "ODA4MA==") ↔
        ((∅ : GoMap).insert (lit "app/port") (lit "ODA4MA==")).lookup (lit "app/port")
            = some (lit "ODA4MA==") ∧
          lit "app" <+: lit "ODA4MA==") := by
  decide

/-! ## Theorems on `LoadLocalKV` -/

theorem lookup_foldl_insert (k : GoString) :
    ∀ (l : List LocalKVPair) (acc : GoMap),
      (l.foldl (fun kvMap pair => kvMap.insert pair.Key pair.Value) acc).lookup k
        = ((l.reverse.find? (fun p => decide (p.Key = k))).map LocalKVPair.Value).or
            (acc.lookup k) := by
  intro l
  induction l with
  | nil => intro acc; simp
  | cons p l ih =>
    intro acc
    rw [List.foldl_cons, ih, List.reverse_cons, List.find?_append]
    cases hf : l.reverse.find? (fun p => decide (p.Key = k)) with
    | some q => simp
    | none =>
      by_cases hk : p.Key = k
      · subst hk
        simp [List.find?, AList.lookup_insert]
      · have hk' : k ≠ p.Key := fun h => hk h.symm
        simp [List.find?, hk, AList.lookup_insert_ne hk']

/-- C9: the map `LoadLocalKV` builds from a decoded sequence of records has as
keys exactly the keys occurring in the sequence, and maps a key to `v` exactly
when the last record carrying that key has value `v`; the empty sequence gives
the empty map. -/
theorem LoadLocalKV_last_write_wins (pairs : List LocalKVPair) :
    ∃ m : GoMap, LoadLocalKV (.decoded pairs) = .ok m ∧
      (∀ k : GoString, k ∈ m ↔ ∃ p ∈ pairs, p.Key = k) ∧
      (∀ k v : GoString, m.lookup k = some v ↔
        ∃ pre post, pairs = pre ++ (⟨k, v⟩ : LocalKVPair) :: post ∧ ∀ p ∈ post, p.Key ≠ k) ∧
      LoadLocalKV (.decoded []) = .ok ∅ := by
  refine ⟨_, rfl, ?_, ?_, rfl⟩
  · intro k
    rw [← AList.lookup_isSome, lookup_foldl_insert]
    simp only [AList.lookup_empty, Option.or_none, Option.isSome_map', List.find?_isSome,
      List.mem_reverse, decide_eq_true_eq]
  · intro k v
    rw [lookup_foldl_insert]
    simp only [AList.lookup_empty, Option.or_none, Option.map_eq_some', List.find?_eq_some]
    constructor
    · rintro ⟨q, ⟨hq, as, bs, hrev, has⟩, hv⟩
      refine ⟨bs.reverse, as.reverse, ?_, ?_⟩
      · have h := congrArg List.reverse hrev
        simp only [List.reverse_reverse, List.reverse_append, List.reverse_cons,
          List.append_assoc, List.singleton_append] at h
        rw [h]
        have hq' : q = ⟨k, v⟩ := by
          cases q
          simp only [decide_eq_true_eq] at hq
          simp_all
        rw [hq']
      · intro p hp
        have := has p (List.mem_reverse.1 hp)
        simpa using this
    · rintro ⟨pre, post, hpairs, hpost⟩
      refine ⟨⟨k, v⟩, ⟨by simp, post.reverse, pre.reverse, ?_, ?_⟩, rfl⟩
      · rw [hpairs]
        simp
      · intro a ha
        simpa using hpost a (List.mem_reverse.1 ha)

/-! ## Theorems on `printResult` -/

theorem strLess_iff_lt (a b : GoString) : strLess a b ↔ a < b := Iff.rfl

theorem strLess_total : IsTotal GoString (fun a b => ¬ strLess b a) :=
  ⟨fun a b => by
    simp only [strLess_iff_lt, not_lt]
    exact le_total a b⟩

theorem strLess_trans : IsTrans GoString (fun a b => ¬ strLess b a) :=
  ⟨fun a b c hab hbc => by
    simp only [strLess_iff_lt, not_lt] at *
    exact le_trans hab hbc⟩

theorem strLess_antisymm : IsAntisymm GoString (fun a b => ¬ strLess b a) :=
  ⟨fun a b hab hba => by
    simp only [strLess_iff_lt, not_lt] at *
    exact le_antisymm hab hba⟩

theorem lessKey_total : IsTotal ModifiedKey (fun a b => ¬ lessKey b a) :=
  ⟨fun a b => by
    simp only [lessKey, strLess_iff_lt, not_lt]
    exact le_total a.Key b.Key⟩

theorem lessKey_trans : IsTrans ModifiedKey (fun a b => ¬ lessKey b a) :=
  ⟨fun a b c hab hbc => by
    simp only [lessKey, strLess_iff_lt, not_lt] at *
    exact le_trans hab hbc⟩

theorem lessKey_antisymm : IsAntisymm ModifiedKey lessKey :=
  ⟨fun a b hab hba => by
    simp only [lessKey, strLess_iff_lt] at *
    exact absurd hab (lt_asymm hba)⟩

theorem not_strLess_iff (a b : GoString) : ¬ strLess b a ↔ strLess a b ∨ a = b := by
  simp only [strLess_iff_lt, not_lt]
  exact le_iff_lt_or_eq

theorem sortSlice_perm (l : List ModifiedKey) : (sortSlice l).Perm l :=
  List.perm_insertionSort _ l

theorem sortStrings_perm (l : List GoString) : (sortStrings l).Perm l :=
  List.perm_insertionSort _ l

theorem sortSlice_sorted (l : List ModifiedKey) :
    (sortSlice l).Pairwise (fun a b => strLess a.Key b.Key ∨ a.Key = b.Key) := by
  haveI := lessKey_total
  haveI := lessKey_trans
  have hs : List.Pairwise (fun a b : ModifiedKey => ¬ lessKey b a) (sortSlice l) :=
    List.sorted_insertionSort (fun a b : ModifiedKey => ¬ lessKey b a) l
  exact hs.imp (fun hab => (not_strLess_iff _ _).1 hab)

theorem sortStrings_sorted (l : List GoString) :
    (sortStrings l).Pairwise (fun a b => strLess a b ∨ a = b) := by
  haveI := strLess_total
  haveI := strLess_trans
  have hs : List.Pairwise (fun a b : GoString => ¬ strLess b a) (sortStrings l) :=
    List.sorted_insertionSort (fun a b : GoString => ¬ strLess b a) l
  exact hs.imp (fun hab => (not_strLess_iff _ _).1 hab)

theorem sortSlice_eq_nil (l : List ModifiedKey) : sortSlice l = [] ↔ l = [] := by
  constructor
  · intro h0
    have hp := sortSlice_perm l
    rw [h0] at hp
    exact List.perm_nil.1 hp.symm
  · intro h0
    rw [h0]
    rfl

theorem sortStrings_eq_nil (l : List GoString) : sortStrings l = [] ↔ l = [] := by
  constructor
  · intro h0
    have hp := sortStrings_perm l
    rw [h0] at hp
    exact List.perm_nil.1 hp.symm
  · intro h0
    rw [h0]
    rfl

/-- C7, as the code has it: for a `DiffResult` whose `Modified` and
`OnlyInConsul` are both empty, `printResult` prints the single line
"No differences found." -/
theorem printResult_no_differences (d : DiffResult) (hM : d.Modified = [])
    (hO : d.OnlyInConsul = []) : printResult d = [lit "No differences found."] := by
  simp [printResult, hM, hO]

/-- C7, as stated, fails: on the result with both slices empty the output is not
empty. -/
theorem printResult_empty_counterexample :
    ({ Modified := [], OnlyInConsul := [] } : DiffResult).Modified = [] ∧
    ({ Modified := [], OnlyInConsul := [] } : DiffResult).OnlyInConsul = [] ∧
    printResult { Modified := [], OnlyInConsul := [] } ≠ [] := by
  decide

/-- C8: for a `DiffResult` with at least one difference, `printResult` prints
the `Modified` entries (heading "=== Modified Keys ===", present only if
`Modified` is non-empty, then key, local value, Consul value and a blank line
for each entry) before the `OnlyInConsul` keys (heading
"=== Keys Only in Consul ===", present only if `OnlyInConsul` is non-empty);
each group is printed in ascending lexicographic order of key and is a
permutation of the input slice, whatever the order of the input. -/
theorem printResult_sorted_groups (d : DiffResult) (h : d.HasDifferences = true) :
    ∃ (ms : List ModifiedKey) (os : List GoString),
      ms.Perm d.Modified ∧ os.Perm d.OnlyInConsul ∧
      ms.Pairwise (fun a b => strLess a.Key b.Key ∨ a.Key = b.Key) ∧
      os.Pairwise (fun a b => strLess a b ∨ a = b) ∧
      printResult d =
        (if ms = [] then []
          else lit "=== Modified Keys ===" ::
            ms.flatMap (fun m => [lit "Key: " ++ m.Key, lit "  Local:  " ++ m.OldValue,
              lit "  Consul: " ++ m.NewValue, []])) ++
        (if os = [] then []
          else lit "=== Keys Only in Consul ===" :: os.map (fun key => lit "- " ++ key)) := by
  refine ⟨sortSlice d.Modified, sortStrings d.OnlyInConsul, sortSlice_perm _,
    sortStrings_perm _, sortSlice_sorted _, sortStrings_sorted _, ?_⟩
  have hne : ¬ (d.Modified.length = 0 ∧ d.OnlyInConsul.length = 0) := by
    rw [hasDifferences_iff] at h
    intro hc
    rcases h with h | h
    · exact h (List.length_eq_zero.1 hc.1)
    · exact h (List.length_eq_zero.1 hc.2)
  unfold printResult
  rw [if_neg hne]
  congr 1
  · by_cases h0 : d.Modified = []
    · simp [h0, (sortSlice_eq_nil []).2 rfl]
    · have : d.Modified.length > 0 := List.length_pos.2 h0
      simp only [this, if_true, mt (sortSlice_eq_nil _).1 h0, if_false]
      rfl
  · by_cases h0 : d.OnlyInConsul = []
    · simp [h0, (sortStrings_eq_nil []).2 rfl]
    · have : d.OnlyInConsul.length > 0 := List.length_pos.2 h0
      simp only [this, if_true, mt (sortStrings_eq_nil _).1 h0, if_false]

/-- The output does not depend on the order of `OnlyInConsul`. -/
theorem sortStrings_congr (l l' : List GoString) (h : l.Perm l') :
    sortStrings l = sortStrings l' := by
  haveI := strLess_antisymm
  have hp : (sortStrings l).Perm (sortStrings l') :=
    ((sortStrings_perm l).trans h).trans (sortStrings_perm l').symm
  have hs : ∀ x : List GoString,
      List.Sorted (fun a b : GoString => ¬ strLess b a) (sortStrings x) := fun x =>
    (sortStrings_sorted x).imp (fun hab => (not_strLess_iff _ _).2 hab)
  exact List.eq_of_perm_of_sorted hp (hs l) (hs l')

theorem sortSlice_strict (l : List ModifiedKey) (hnd : (l.map ModifiedKey.Key).Nodup) :
    List.Sorted lessKey (sortSlice l) := by
  have hnd' : ((sortSlice l).map ModifiedKey.Key).Nodup :=
    (((sortSlice_perm l).map ModifiedKey.Key).nodup_iff).2 hnd
  have hne : (sortSlice l).Pairwise (fun a b => a.Key ≠ b.Key) := List.pairwise_map.1 hnd'
  refine ((sortSlice_sorted l).and hne).imp ?_
  rintro a b ⟨hab, hk⟩
  rcases hab with h | h
  · exact h
  · exact absurd h hk

/-- When the keys of `Modified` are pairwise distinct, as they are in a result
of `Compare`, the sorted slice does not depend on the order of `Modified`. -/
theorem sortSlice_congr (l l' : List ModifiedKey) (h : l.Perm l')
    (hnd : (l.map ModifiedKey.Key).Nodup) : sortSlice l = sortSlice l' := by
  haveI := lessKey_antisymm
  have hnd' : (l'.map ModifiedKey.Key).Nodup := ((h.map ModifiedKey.Key).nodup_iff).1 hnd
  have hp : (sortSlice l).Perm (sortSlice l') :=
    ((sortSlice_perm l).trans h).trans (sortSlice_perm l').symm
  exact List.eq_of_perm_of_sorted hp (sortSlice_strict l hnd) (sortSlice_strict l' hnd')

/-- What `printResult` writes does not depend on the order of the two slices,
when the keys of `Modified` are pairwise distinct. -/
theorem printResult_order_independent (d d' : DiffResult)
    (hM : d.Modified.Perm d'.Modified) (hO : d.OnlyInConsul.Perm d'.OnlyInConsul)
    (hnd : (d.Modified.map ModifiedKey.Key).Nodup) : printResult d = printResult d' := by
  unfold printResult
  rw [sortSlice_congr _ _ hM hnd, sortStrings_congr _ _ hO, hM.length_eq, hO.length_eq]

/-- Witness for C4: `local = {"x": "1", "a": "1"}`, `consul = {"a": "2", "c": "9"}`,
`k = "x"`. -/
theorem Compare_local_only_ignored_witness :
    lit "x" ∈ ((∅ : GoMap).insert (lit "x") (lit "1")).insert (lit "a") (lit "1") ∧
    lit "x" ∉ ((∅ : GoMap).insert (lit "a") (lit "2")).insert (lit "c") (lit "9") ∧
    (∀ m ∈ (Compare (((∅ : GoMap).insert (lit "x") (lit "1")).insert (lit "a") (lit "1"))
        (((∅ : GoMap).insert (lit "a") (lit "2")).insert (lit "c") (lit "9"))).Modified,
      m.Key ≠ lit "x") ∧
    lit "x" ∉ (Compare (((∅ : GoMap).insert (lit "x") (lit "1")).insert (lit "a") (lit "1"))
        (((∅ : GoMap).insert (lit "a") (lit "2")).insert (lit "c") (lit "9"))).OnlyInConsul :=
  ⟨by decide, by decide,
    (Compare_local_only_ignored (((∅ : GoMap).insert (lit "x") (lit "1")).insert (lit "a") (lit "1"))).1
      (((∅ : GoMap).insert (lit "a") (lit "2")).insert (lit "c") (lit "9")) (lit "x")
      (by decide) (by decide)⟩

/-- Witness for C7: the result with both slices empty. -/
theorem printResult_no_differences_witness :
    printResult { Modified := [], OnlyInConsul := [] } = [lit "No differences found."] :=
  printResult_no_differences { Modified := [], OnlyInConsul := [] } rfl rfl

/-- Witness for C8: one modified key and two Consul-only keys given out of
order. -/
theorem printResult_sorted_groups_witness :
    ({ Modified := [⟨lit "b", lit "2", lit "3"⟩], OnlyInConsul := [lit "z", lit "c"] } :
        DiffResult).HasDifferences = true ∧
    ∃ (ms : List ModifiedKey) (os : List GoString),
      ms.Perm [⟨lit "b", lit "2", lit "3"⟩] ∧ os.Perm [lit "z", lit "c"] ∧
      ms.Pairwise (fun a b => strLess a.Key b.Key ∨ a.Key = b.Key) ∧
      os.Pairwise (fun a b => strLess a b ∨ a = b) ∧
      printResult { Modified := [⟨lit "b", lit "2", lit "3"⟩], OnlyInConsul := [lit "z", lit "c"] } =
        (if ms = [] then []
          else lit "=== Modified Keys ===" ::
            ms.flatMap (fun m => [lit "Key: " ++ m.Key, lit "  Local:  " ++ m.OldValue,
              lit "  Consul: " ++ m.NewValue, []])) ++
        (if os = [] then []
          else lit "=== Keys Only in Consul ===" :: os.map (fun key => lit "- " ++ key)) :=
  ⟨by decide,
    printResult_sorted_groups
      { Modified := [⟨lit "b", lit "2", lit "3"⟩], OnlyInConsul := [lit "z", lit "c"] }
      (by decide)⟩

/-! ## The scenarios of `diff_test.go` and the examples of the specification -/

theorem Compare_example_value_change :
    Compare (((∅ : GoMap).insert (lit "a") (lit "1")).insert (lit "b") (lit "2"))
        (((∅ : GoMap).insert (lit "a") (lit "1")).insert (lit "b") (lit "3"))
      = { Modified := [⟨lit "b", lit "2", lit "3"⟩], OnlyInConsul := [] } := by
  decide

theorem Compare_example_consul_only :
    Compare ((∅ : GoMap).insert (lit "a") (lit "1"))
        (((∅ : GoMap).insert (lit "a") (lit "1")).insert (lit "c") (lit "9"))
      = { Modified := [], OnlyInConsul := [lit "c"] } := by
  decide

theorem Compare_example_empty_local :
    Compare (∅ : GoMap) ((∅ : GoMap).insert (lit "x") (lit "1"))
      = { Modified := [], OnlyInConsul := [lit "x"] } := by
  decide

theorem Compare_example_empty_consul :
    Compare ((∅ : GoMap).insert (lit "x") (lit "1")) (∅ : GoMap)
      = { Modified := [], OnlyInConsul := [] } := by
  decide

theorem printResult_example :
    printResult { Modified := [⟨lit "b", lit "2", lit "3"⟩], OnlyInConsul := [lit "z", lit "c"] }
      = [lit "=== Modified Keys ===", lit "Key: b", lit "  Local:  2", lit "  Consul: 3", [],
          lit "=== Keys Only in Consul ===", lit "- c", lit "- z"] := by
  decide

end ConsulKVDiff
